import Mathlib

/-!
Shallow embedding of the `rebalancer` Go package (pdbrito/rebalancer).

Go's `shopspring/decimal` arbitrary-precision decimals are modelled as `ℚ`:
addition, subtraction, multiplication, comparison and absolute value on
decimals are exact, and `Decimal.Div` (which rounds the true quotient to
`DivisionPrecision = 16` fractional digits, half away from zero) is modelled
by `decDiv` below.  Go maps (`map[Asset]decimal.Decimal`, `map[Asset]Trade`)
are modelled as association lists of key/value pairs, one entry per key;
iteration order of a Go map is the list order, and theorems that depend on
order-independence quantify over permutations.  `strings.ToUpper` is
modelled by mapping `Char.toUpper` over the characters of the string.
-/

namespace Rebalancer

/-- Model of Go `strings.ToUpper`: uppercase every character. -/
def toUpperStr (s : String) : String := String.mk (s.data.map Char.toUpper)

/-- A Go `map[Asset]decimal.Decimal` as an association list (`Asset` is a
string type in the source). -/
abbrev AssetMap := List (String × ℚ)

/-- Go map read `m[a]`: `some v` when the key is present (keys of a Go map
are unique, so the first entry is the entry). -/
def lookupKV {β : Type} (a : String) : List (String × β) → Option β
  | [] => none
  | (b, v) :: rest => if b = a then some v else lookupKV a rest

/-- Key set of an association list, in entry order. -/
def keysOf {β : Type} (l : List (String × β)) : List String := l.map Prod.fst

/-- Go map read defaulting to the zero decimal, as `globalPricelist[asset]`
does for a missing key. -/
def priceOf (g : AssetMap) (a : String) : ℚ := (lookupKV a g).getD 0

/-- `DivisionPrecision = 16`, the shopspring default in force in the source. -/
def divisionPrecision : ℕ := 16

/-- Model of shopspring `Decimal.Div`: the true quotient rounded to
`divisionPrecision` fractional digits, half away from zero (`DivRound`). -/
def decDiv (a b : ℚ) : ℚ :=
  if a / b < 0 then
    -(((⌊-(a / b) * 10 ^ divisionPrecision + 1 / 2⌋ : ℤ) : ℚ) / 10 ^ divisionPrecision)
  else
    ((⌊a / b * 10 ^ divisionPrecision + 1 / 2⌋ : ℤ) : ℚ) / 10 ^ divisionPrecision

/-- The error values of the package (`ErrInvalidAsset`,
`ErrInvalidAssetAmount`, `ErrEmptyPricelist`, `ErrAssetMissingFromPricelist`,
`ErrEmptyPortfolio`, `ErrEmptyIndex`, `ErrIndexSumIncorrect`). -/
inductive Err : Type
  | invalidAsset : Err
  | invalidAssetAmount : String → ℚ → Err
  | emptyPricelist : Err
  | assetMissingFromPricelist : Err
  | emptyPortfolio : Err
  | emptyIndex : Err
  | indexSumIncorrect : Err
deriving DecidableEq

/-- The entry loop of `SetPricelist`: for each entry, reject a price `≤ 0`
first, then a non-uppercase key; `none` means every entry passed. -/
def checkPricelistEntries : AssetMap → Option Err
  | [] => none
  | (asset, price) :: rest =>
    if price < 0 ∨ price = 0 then some (Err.invalidAssetAmount asset price)
    else if toUpperStr asset ≠ asset then some Err.invalidAsset
    else checkPricelistEntries rest

/-- `SetPricelist` validates the supplied mapping and replaces the global
pricelist only when validation succeeds; the pair is (returned error,
global pricelist after the call), with `g` the global pricelist before. -/
def SetPricelist (g : AssetMap) (pricelist : AssetMap) : Except Err Unit × AssetMap :=
  if pricelist = [] then (Except.error Err.emptyPricelist, g)
  else
    match checkPricelistEntries pricelist with
    | some e => (Except.error e, g)
    | none => (Except.ok (), pricelist)

/-- `GlobalPricelist` returns the current value of the global pricelist. -/
def GlobalPricelist (g : AssetMap) : AssetMap := g

/-- `ClearGlobalPricelist` resets the global pricelist to the empty map. -/
def ClearGlobalPricelist : AssetMap := []

/-- The entry loop of `NewPortfolio`: for each entry, reject a non-uppercase
key first, then a key missing from the global pricelist `g`, then an
amount `≤ 0`. -/
def checkPortfolioEntries (g : AssetMap) : AssetMap → Option Err
  | [] => none
  | (asset, amount) :: rest =>
    if toUpperStr asset ≠ asset then some Err.invalidAsset
    else if lookupKV asset g = none then some Err.assetMissingFromPricelist
    else if amount < 0 ∨ amount = 0 then some (Err.invalidAssetAmount asset amount)
    else checkPortfolioEntries g rest

/-- `NewPortfolio` validates and returns the portfolio mapping;
`g` is the global pricelist. -/
def NewPortfolio (g : AssetMap) (portfolio : AssetMap) : Except Err AssetMap :=
  if portfolio = [] then Except.error Err.emptyPortfolio
  else
    match checkPortfolioEntries g portfolio with
    | some e => Except.error e
    | none => Except.ok portfolio

/-- An `Account` has a portfolio and a calculated total value. -/
structure Account : Type where
  portfolio : AssetMap
  value : ℚ
deriving DecidableEq

/-- The total-value loop of `NewAccount`:
`Σ globalPricelist[asset] * amount` over the portfolio entries. -/
def portfolioValue (g : AssetMap) (pf : AssetMap) : ℚ :=
  (pf.map (fun e => priceOf g e.1 * e.2)).sum

/-- `NewAccount` requires a non-empty global pricelist, validates the
portfolio with `NewPortfolio`, and returns an `Account` holding the
portfolio and its total value. -/
def NewAccount (g : AssetMap) (portfolio : AssetMap) : Except Err Account :=
  if g = [] then Except.error Err.emptyPricelist
  else
    match NewPortfolio g portfolio with
    | Except.error e => Except.error e
    | Except.ok pf => Except.ok ⟨pf, portfolioValue g pf⟩

/-- The entry loop of `NewIndex`, accumulating the running sum of the
weights: for each entry, reject a non-uppercase key first, then a key
missing from the global pricelist `g`, then a weight `≤ 0`;
on success return the final sum. -/
def checkIndexEntries (g : AssetMap) : AssetMap → ℚ → Except Err ℚ
  | [], total => Except.ok total
  | (asset, percentage) :: rest, total =>
    if toUpperStr asset ≠ asset then Except.error Err.invalidAsset
    else if lookupKV asset g = none then Except.error Err.assetMissingFromPricelist
    else if percentage < 0 ∨ percentage = 0 then
      Except.error (Err.invalidAssetAmount asset percentage)
    else checkIndexEntries g rest (total + percentage)

/-- `NewIndex` validates the weighting: non-empty, per-entry checks in loop
order, and the accumulated sum must equal exactly 1. -/
def NewIndex (g : AssetMap) (index : AssetMap) : Except Err AssetMap :=
  if index = [] then Except.error Err.emptyIndex
  else
    match checkIndexEntries g index 0 with
    | Except.error e => Except.error e
    | Except.ok total =>
      if total ≠ 1 then Except.error Err.indexSumIncorrect else Except.ok index

/-- A `Trade` is a buy or sell action of a certain amount. -/
structure Trade : Type where
  action : String
  amount : ℚ
deriving DecidableEq

/-- The body of the `Rebalance` loop for one asset of the target index:
`amountRequired = a.value * percentage / globalPricelist[asset]`, minus the
portfolio amount when the asset is held; a negative result is a sell of its
absolute value, otherwise a buy of its absolute value. -/
def tradeFor (g : AssetMap) (pf : AssetMap) (v : ℚ) (asset : String) (percentage : ℚ) : Trade :=
  let req := decDiv (v * percentage) (priceOf g asset)
  let req :=
    match lookupKV asset pf with
    | some amt => req - amt
    | none => req
  if req < 0 then ⟨"sell", |req|⟩ else ⟨"buy", |req|⟩

/-- The `Rebalance` loop over the validated index: one trade entry per
index entry, keyed by the asset. -/
def rebalanceLoop (g : AssetMap) (pf : AssetMap) (v : ℚ) : AssetMap → List (String × Trade)
  | [] => []
  | (asset, percentage) :: rest =>
    (asset, tradeFor g pf v asset percentage) :: rebalanceLoop g pf v rest

/-- `Account.Rebalance`: validate the target index with `NewIndex`, then
produce the trade map; `g` is the global pricelist. -/
def Rebalance (g : AssetMap) (a : Account) (targetIndex : AssetMap) :
    Except Err (List (String × Trade)) :=
  match NewIndex g targetIndex with
  | Except.error e => Except.error e
  | Except.ok idx => Except.ok (rebalanceLoop g a.portfolio a.value idx)

/-- The per-asset trade as the specification phrases it: with
`delta = total_value * w / price[asset] - current quantity (0 if unheld)`,
a negative delta is a sell of `|delta|`, otherwise a buy of `delta`. -/
def tradeSpec (g : AssetMap) (pf : AssetMap) (v : ℚ) (asset : String) (w : ℚ) : Trade :=
  let delta := decDiv (v * w) (priceOf g asset) - (lookupKV asset pf).getD 0
  if delta < 0 then ⟨"sell", |delta|⟩ else ⟨"buy", delta⟩

/-- Validity of every entry of a mapping against the pricelist `g`:
uppercase key, key present in `g`, positive value. -/
def entriesValid (g : AssetMap) (l : AssetMap) : Prop :=
  ∀ p ∈ l, toUpperStr p.1 = p.1 ∧ lookupKV p.1 g ≠ none ∧ 0 < p.2

/-- The claim's execution semantics for one trade: the signed quantity
adjustment, negative for a sell. -/
def tradeDelta (t : Trade) : ℚ := if t.action = "sell" then -t.amount else t.amount

/-- Add `d` to the quantity stored under key `a`, inserting the key if it
is absent (Go map read-modify-write). -/
def updateAdd : AssetMap → String → ℚ → AssetMap
  | [], a, d => [(a, d)]
  | (b, q) :: rest, a, d =>
    if b = a then (b, q + d) :: rest else (b, q) :: updateAdd rest a d

/-- Execute every emitted trade against a portfolio: quantity increased by
the amount on a buy, decreased by the amount on a sell. -/
def applyTrades (pf : AssetMap) : List (String × Trade) → AssetMap
  | [] => pf
  | (a, t) :: rest => applyTrades (updateAdd pf a (tradeDelta t)) rest

/-- Remove every entry with key `a` (auxiliary for value bookkeeping). -/
def eraseKey (a : String) : AssetMap → AssetMap
  | [] => []
  | (b, q) :: rest => if b = a then eraseKey a rest else (b, q) :: eraseKey a rest


theorem lookupKV_mem {β : Type} {a : String} {v : β} :
    ∀ {l : List (String × β)}, lookupKV a l = some v → (a, v) ∈ l
  | [], h => by simp [lookupKV] at h
  | (b, w) :: rest, h => by
    simp only [lookupKV] at h
    by_cases hb : b = a
    · rw [if_pos hb] at h
      injection h with h
      subst hb; subst h
      exact List.mem_cons_self _ _
    · rw [if_neg hb] at h
      exact List.mem_cons_of_mem _ (lookupKV_mem h)

theorem lookupKV_eq_none_iff {β : Type} {a : String} :
    ∀ {l : List (String × β)}, lookupKV a l = none ↔ a ∉ keysOf l
  | [] => by simp [lookupKV, keysOf]
  | (b, w) :: rest => by
    simp only [lookupKV, keysOf, List.map_cons, List.mem_cons]
    by_cases hb : b = a
    · subst hb; simp
    · rw [if_neg hb, lookupKV_eq_none_iff]
      simp only [keysOf]
      constructor
      · intro h hm
        rcases hm with hm | hm
        · exact hb hm.symm
        · exact h hm
      · intro h hm
        exact h (Or.inr hm)

theorem checkIndexEntries_ok_iff (g : AssetMap) (l : AssetMap) :
    ∀ (t s : ℚ), checkIndexEntries g l t = Except.ok s ↔
      entriesValid g l ∧ s = t + (l.map Prod.snd).sum := by
  induction l with
  | nil =>
    intro t s
    simp [checkIndexEntries, entriesValid, eq_comm]
  | cons p rest ih =>
    intro t s
    obtain ⟨a, x⟩ := p
    constructor
    · intro h
      simp only [checkIndexEntries] at h
      by_cases h1 : toUpperStr a ≠ a
      · rw [if_pos h1] at h; cases h
      rw [if_neg h1] at h
      by_cases h2 : lookupKV a g = none
      · rw [if_pos h2] at h; cases h
      rw [if_neg h2] at h
      by_cases h3 : x < 0 ∨ x = 0
      · rw [if_pos h3] at h; cases h
      rw [if_neg h3] at h
      have hx : 0 < x := by
        push_neg at h3
        exact lt_of_le_of_ne h3.1 (Ne.symm h3.2)
      obtain ⟨hv, hs⟩ := (ih (t + x) s).mp h
      refine ⟨?_, ?_⟩
      · intro q hq
        rcases List.mem_cons.mp hq with hq | hq
        · subst hq; exact ⟨not_not.mp h1, h2, hx⟩
        · exact hv q hq
      · rw [hs]; simp; ring
    · rintro ⟨hv, hs⟩
      have h1 := (hv (a, x) (List.mem_cons_self _ _)).1
      have h2 := (hv (a, x) (List.mem_cons_self _ _)).2.1
      have h3 := (hv (a, x) (List.mem_cons_self _ _)).2.2
      simp only [checkIndexEntries]
      rw [if_neg (not_not.mpr h1), if_neg h2,
        if_neg (by push_neg; exact ⟨le_of_lt h3, ne_of_gt h3⟩)]
      refine (ih (t + x) s).mpr ⟨fun q hq => hv q (List.mem_cons_of_mem _ hq), ?_⟩
      rw [hs]; simp; ring

theorem checkPortfolioEntries_none_iff (g : AssetMap) :
    ∀ {l : AssetMap}, checkPortfolioEntries g l = none ↔ entriesValid g l
  | [] => by simp [checkPortfolioEntries, entriesValid]
  | (a, x) :: rest => by
    constructor
    · intro h
      simp only [checkPortfolioEntries] at h
      by_cases h1 : toUpperStr a ≠ a
      · rw [if_pos h1] at h; cases h
      rw [if_neg h1] at h
      by_cases h2 : lookupKV a g = none
      · rw [if_pos h2] at h; cases h
      rw [if_neg h2] at h
      by_cases h3 : x < 0 ∨ x = 0
      · rw [if_pos h3] at h; cases h
      rw [if_neg h3] at h
      have hx : 0 < x := by
        push_neg at h3
        exact lt_of_le_of_ne h3.1 (Ne.symm h3.2)
      intro q hq
      rcases List.mem_cons.mp hq with hq | hq
      · subst hq; exact ⟨not_not.mp h1, h2, hx⟩
      · exact (checkPortfolioEntries_none_iff g).mp h q hq
    · intro hv
      have h1 := (hv (a, x) (List.mem_cons_self _ _)).1
      have h2 := (hv (a, x) (List.mem_cons_self _ _)).2.1
      have h3 := (hv (a, x) (List.mem_cons_self _ _)).2.2
      simp only [checkPortfolioEntries]
      rw [if_neg (not_not.mpr h1), if_neg h2,
        if_neg (by push_neg; exact ⟨le_of_lt h3, ne_of_gt h3⟩)]
      exact (checkPortfolioEntries_none_iff g).mpr
        (fun q hq => hv q (List.mem_cons_of_mem _ hq))

theorem checkPricelistEntries_none_iff :
    ∀ {l : AssetMap}, checkPricelistEntries l = none ↔
      ∀ p ∈ l, 0 < p.2 ∧ toUpperStr p.1 = p.1
  | [] => by simp [checkPricelistEntries]
  | (a, x) :: rest => by
    constructor
    · intro h
      simp only [checkPricelistEntries] at h
      by_cases h1 : x < 0 ∨ x = 0
      · rw [if_pos h1] at h; cases h
      rw [if_neg h1] at h
      by_cases h2 : toUpperStr a ≠ a
      · rw [if_pos h2] at h; cases h
      rw [if_neg h2] at h
      have hx : 0 < x := by
        push_neg at h1
        exact lt_of_le_of_ne h1.1 (Ne.symm h1.2)
      intro q hq
      rcases List.mem_cons.mp hq with hq | hq
      · subst hq; exact ⟨hx, not_not.mp h2⟩
      · exact checkPricelistEntries_none_iff.mp h q hq
    · intro hv
      have h1 := (hv (a, x) (List.mem_cons_self _ _)).1
      have h2 := (hv (a, x) (List.mem_cons_self _ _)).2
      simp only [checkPricelistEntries]
      rw [if_neg (by push_neg; exact ⟨le_of_lt h1, ne_of_gt h1⟩),
        if_neg (not_not.mpr h2)]
      exact checkPricelistEntries_none_iff.mpr
        (fun q hq => hv q (List.mem_cons_of_mem _ hq))

theorem newIndex_ok_iff {g idx out : AssetMap} :
    NewIndex g idx = Except.ok out ↔
      idx ≠ [] ∧ entriesValid g idx ∧ (idx.map Prod.snd).sum = 1 ∧ out = idx := by
  rw [NewIndex]
  by_cases hne : idx = []
  · subst hne; simp
  · rw [if_neg hne]
    cases hq : checkIndexEntries g idx 0 with
    | error e =>
      dsimp only
      constructor
      · intro h; cases h
      · rintro ⟨-, h2, -, -⟩
        have := (checkIndexEntries_ok_iff g idx 0 (0 + (idx.map Prod.snd).sum)).mpr ⟨h2, rfl⟩
        rw [hq] at this; cases this
    | ok total =>
      obtain ⟨hv, htot⟩ := (checkIndexEntries_ok_iff g idx 0 total).mp hq
      dsimp only
      by_cases ht : total = 1
      · rw [if_neg (not_not.mpr ht)]
        constructor
        · intro h
          injection h with h
          exact ⟨hne, hv, by rw [htot] at ht; linarith, h.symm⟩
        · rintro ⟨-, -, -, h4⟩; rw [h4]
      · rw [if_pos ht]
        constructor
        · intro h; cases h
        · rintro ⟨-, -, h3, -⟩
          rw [htot, h3] at ht
          simp at ht

theorem newPortfolio_ok_iff {g pf out : AssetMap} :
    NewPortfolio g pf = Except.ok out ↔
      pf ≠ [] ∧ entriesValid g pf ∧ out = pf := by
  rw [NewPortfolio]
  by_cases hne : pf = []
  · subst hne; simp
  · rw [if_neg hne]
    cases hq : checkPortfolioEntries g pf with
    | some e =>
      dsimp only
      constructor
      · intro h; cases h
      · rintro ⟨-, h2, -⟩
        have := (checkPortfolioEntries_none_iff g).mpr h2
        rw [hq] at this; cases this
    | none =>
      have hv := (checkPortfolioEntries_none_iff g).mp hq
      dsimp only
      constructor
      · intro h; injection h with h; exact ⟨hne, hv, h.symm⟩
      · rintro ⟨-, -, h3⟩; rw [h3]

theorem newAccount_ok_iff {g pf : AssetMap} {acc : Account} :
    NewAccount g pf = Except.ok acc ↔
      g ≠ [] ∧ pf ≠ [] ∧ entriesValid g pf ∧ acc = ⟨pf, portfolioValue g pf⟩ := by
  rw [NewAccount]
  by_cases hg : g = []
  · subst hg; simp
  · rw [if_neg hg]
    cases hq : NewPortfolio g pf with
    | error e =>
      dsimp only
      constructor
      · intro h; cases h
      · rintro ⟨-, h2, h3, -⟩
        have := newPortfolio_ok_iff.mpr ⟨h2, h3, rfl⟩
        rw [hq] at this; cases this
    | ok pf2 =>
      obtain ⟨hne, hv, hpf⟩ := newPortfolio_ok_iff.mp hq
      subst hpf
      dsimp only
      constructor
      · intro h; injection h with h; exact ⟨hg, hne, hv, h.symm⟩
      · rintro ⟨-, -, -, h4⟩; rw [h4]

theorem rebalance_ok_iff {g : AssetMap} {a : Account} {idx : AssetMap}
    {out : List (String × Trade)} :
    Rebalance g a idx = Except.ok out ↔
      NewIndex g idx = Except.ok idx ∧ out = rebalanceLoop g a.portfolio a.value idx := by
  rw [Rebalance]
  cases hq : NewIndex g idx with
  | error e =>
    dsimp only
    constructor
    · intro h; cases h
    · rintro ⟨h1, -⟩; cases h1
  | ok i =>
    have hi : i = idx := (newIndex_ok_iff.mp hq).2.2.2
    subst hi
    dsimp only
    constructor
    · intro h; injection h with h; exact ⟨rfl, h.symm⟩
    · rintro ⟨-, h2⟩; rw [h2]

theorem tradeFor_eq_tradeSpec (g pf : AssetMap) (v : ℚ) (a : String) (w : ℚ) :
    tradeFor g pf v a w = tradeSpec g pf v a w := by
  cases h : lookupKV a pf with
  | none =>
    simp only [tradeFor, tradeSpec, h, Option.getD_none, sub_zero]
    split_ifs with hlt
    · rfl
    · rw [abs_of_nonneg (not_lt.mp hlt)]
  | some amt =>
    simp only [tradeFor, tradeSpec, h, Option.getD_some]
    split_ifs with hlt
    · rfl
    · rw [abs_of_nonneg (not_lt.mp hlt)]

theorem rebalanceLoop_lookup (g pf : AssetMap) (v : ℚ) :
    ∀ (l : AssetMap) (s : String),
      lookupKV s (rebalanceLoop g pf v l) =
        (lookupKV s l).map (fun w => tradeSpec g pf v s w)
  | [], s => by simp [rebalanceLoop, lookupKV]
  | (b, w) :: rest, s => by
    simp only [rebalanceLoop, lookupKV]
    by_cases hb : b = s
    · subst hb
      rw [if_pos rfl, if_pos rfl, tradeFor_eq_tradeSpec]
      rfl
    · rw [if_neg hb, if_neg hb, rebalanceLoop_lookup]

theorem rebalanceLoop_keys (g pf : AssetMap) (v : ℚ) :
    ∀ l : AssetMap, keysOf (rebalanceLoop g pf v l) = keysOf l
  | [] => rfl
  | (b, w) :: rest => by
    have ih := rebalanceLoop_keys g pf v rest
    simp only [rebalanceLoop, keysOf, List.map_cons] at ih ⊢
    rw [ih]

/-- C2: for every validated account and validated target weighting, the map
returned by `Rebalance` has exactly one entry per asset key of the weighting
and no others; the entry for an asset with weight `w` is given by
`tradeSpec`: with `delta = total_value * w / price[asset]` (the decimal
type's 16-digit division) minus the held quantity (0 when unheld), a
negative delta is a sell of `|delta|`, otherwise a buy of `delta` (so a
delta of exactly zero is a buy of amount zero). -/
theorem C2_rebalance_output_characterization (g : AssetMap) (acc : Account)
    (idx : AssetMap) (out : List (String × Trade))
    (h : Rebalance g acc idx = Except.ok out) :
    keysOf out = keysOf idx ∧
    (∀ s w, lookupKV s idx = some w →
      lookupKV s out = some (tradeSpec g acc.portfolio acc.value s w)) ∧
    (∀ s, lookupKV s idx = none → lookupKV s out = none) := by
  obtain ⟨hidx, hout⟩ := rebalance_ok_iff.mp h
  subst hout
  refine ⟨rebalanceLoop_keys _ _ _ _, ?_, ?_⟩
  · intro s w hw
    rw [rebalanceLoop_lookup, hw]
    rfl
  · intro s hw
    rw [rebalanceLoop_lookup, hw]
    rfl

/-- C2 witness: the characterization applied to the README example account,
read off at the asset BTC. -/
theorem C2_witness :
    lookupKV "BTC"
        [("ETH", (⟨"sell", 168 / 5⟩ : Trade)), ("BTC", ⟨"buy", 21 / 25⟩),
         ("IOTA", ⟨"buy", 5600⟩), ("BAT", ⟨"buy", 14000⟩), ("XLM", ⟨"buy", 8400⟩)]
      = some (tradeSpec
          [("ETH", 200), ("BTC", 2000), ("IOTA", 3 / 10), ("BAT", 12 / 100), ("XLM", 2 / 10)]
          [("ETH", 42)] 8400 "BTC" (1 / 5)) := by
  have h := C2_rebalance_output_characterization
    [("ETH", 200), ("BTC", 2000), ("IOTA", 3 / 10), ("BAT", 12 / 100), ("XLM", 2 / 10)]
    ⟨[("ETH", 42)], 8400⟩
    [("ETH", 1 / 5), ("BTC", 1 / 5), ("IOTA", 1 / 5), ("BAT", 1 / 5), ("XLM", 1 / 5)]
    [("ETH", ⟨"sell", 168 / 5⟩), ("BTC", ⟨"buy", 21 / 25⟩),
     ("IOTA", ⟨"buy", 5600⟩), ("BAT", ⟨"buy", 14000⟩), ("XLM", ⟨"buy", 8400⟩)]
    (by norm_num +decide [Rebalance, NewIndex, checkIndexEntries, rebalanceLoop, tradeFor,
      decDiv, divisionPrecision, priceOf, lookupKV])
  exact h.2.1 "BTC" (1 / 5) (by norm_num +decide [lookupKV])

/-- C3: for the pricelist, portfolio and weighting of the README example,
the account value is exactly 8400 and `Rebalance` returns exactly the five
trades sell 33.6 ETH, buy 0.84 BTC, buy 5600 IOTA, buy 14000 BAT,
buy 8400 XLM. -/
theorem C3_new_asset_rebalancing :
    NewAccount
        [("ETH", 200), ("BTC", 2000), ("IOTA", 3 / 10), ("BAT", 12 / 100), ("XLM", 2 / 10)]
        [("ETH", 42)]
      = Except.ok ⟨[("ETH", 42)], 8400⟩ ∧
    Rebalance
        [("ETH", 200), ("BTC", 2000), ("IOTA", 3 / 10), ("BAT", 12 / 100), ("XLM", 2 / 10)]
        ⟨[("ETH", 42)], 8400⟩
        [("ETH", 1 / 5), ("BTC", 1 / 5), ("IOTA", 1 / 5), ("BAT", 1 / 5), ("XLM", 1 / 5)]
      = Except.ok
          [("ETH", ⟨"sell", 336 / 10⟩), ("BTC", ⟨"buy", 84 / 100⟩),
           ("IOTA", ⟨"buy", 5600⟩), ("BAT", ⟨"buy", 14000⟩), ("XLM", ⟨"buy", 8400⟩)] := by
  constructor
  · norm_num +decide [NewAccount, NewPortfolio, checkPortfolioEntries, portfolioValue,
      priceOf, lookupKV]
  · norm_num +decide [Rebalance, NewIndex, checkIndexEntries, rebalanceLoop, tradeFor,
      decDiv, divisionPrecision, priceOf, lookupKV]

/-- C9: `SetPricelist` is atomic on error: whenever it returns an error, the
global pricelist observed through `GlobalPricelist` is unchanged. -/
theorem C9_setPricelist_atomic (g m : AssetMap) (e : Err)
    (h : (SetPricelist g m).1 = Except.error e) :
    GlobalPricelist (SetPricelist g m).2 = GlobalPricelist g := by
  rw [GlobalPricelist, GlobalPricelist, SetPricelist]
  by_cases hm : m = []
  · rw [if_pos hm]
  · rw [if_neg hm]
    cases hq : checkPricelistEntries m with
    | some e2 => rfl
    | none =>
      rw [SetPricelist, if_neg hm, hq] at h
      cases h

/-- C9 witness: a pricelist rejected for a lowercase key leaves the
previously installed global pricelist in place. -/
theorem C9_witness :
    GlobalPricelist (SetPricelist [("BTC", 5)] [("eth", 1)]).2
      = GlobalPricelist [("BTC", 5)] :=
  C9_setPricelist_atomic [("BTC", 5)] [("eth", 1)] Err.invalidAsset
    (by norm_num +decide [SetPricelist, checkPricelistEntries])

/-- C7: a target weighting whose entries are individually valid but whose
values do not sum to exactly 1 is rejected by `NewIndex` with
`indexSumIncorrect`, and `Rebalance` propagates that rejection for any
account, producing no trades. -/
theorem C7_nonunit_sum_rejected (g idx : AssetMap) (a : Account)
    (hne : idx ≠ []) (hval : entriesValid g idx)
    (hsum : (idx.map Prod.snd).sum ≠ 1) :
    NewIndex g idx = Except.error Err.indexSumIncorrect ∧
    Rebalance g a idx = Except.error Err.indexSumIncorrect := by
  have hni : NewIndex g idx = Except.error Err.indexSumIncorrect := by
    rw [NewIndex, if_neg hne,
      (checkIndexEntries_ok_iff g idx 0 (0 + (idx.map Prod.snd).sum)).mpr ⟨hval, rfl⟩]
    dsimp only
    rw [if_pos (by simpa using hsum)]
  refine ⟨hni, ?_⟩
  rw [Rebalance, hni]

/-- C7 witness: the weighting of the claim, with weights 0.2 and 0.2. -/
theorem C7_witness :
    NewIndex [("A", 1), ("B", 1)] [("A", 2 / 10), ("B", 2 / 10)]
      = Except.error Err.indexSumIncorrect ∧
    Rebalance [("A", 1), ("B", 1)] ⟨[("A", 1)], 1⟩ [("A", 2 / 10), ("B", 2 / 10)]
      = Except.error Err.indexSumIncorrect :=
  C7_nonunit_sum_rejected [("A", 1), ("B", 1)] [("A", 2 / 10), ("B", 2 / 10)]
    ⟨[("A", 1)], 1⟩ (by simp)
    (by norm_num +decide [entriesValid, lookupKV])
    (by norm_num)

theorem checkPricelistEntries_append_bad (l₁ l₂ : AssetMap) (a : String) (x : ℚ)
    (hbad : toUpperStr a ≠ a) (hpos : 0 < x)
    (hval : ∀ p ∈ l₁, 0 < p.2 ∧ toUpperStr p.1 = p.1) :
    checkPricelistEntries (l₁ ++ (a, x) :: l₂) = some Err.invalidAsset := by
  induction l₁ with
  | nil =>
    simp only [List.nil_append, checkPricelistEntries]
    rw [if_neg (by push_neg; exact ⟨le_of_lt hpos, ne_of_gt hpos⟩), if_pos hbad]
  | cons p rest ih =>
    obtain ⟨b, q⟩ := p
    have hq := hval (b, q) (List.mem_cons_self _ _)
    simp only [List.cons_append, checkPricelistEntries]
    rw [if_neg (by push_neg; exact ⟨le_of_lt hq.1, ne_of_gt hq.1⟩),
      if_neg (not_not.mpr hq.2)]
    exact ih (fun p hp => hval p (List.mem_cons_of_mem _ hp))

theorem checkPortfolioEntries_append_bad (g l₁ l₂ : AssetMap) (a : String) (x : ℚ)
    (hbad : toUpperStr a ≠ a) (hval : entriesValid g l₁) :
    checkPortfolioEntries g (l₁ ++ (a, x) :: l₂) = some Err.invalidAsset := by
  induction l₁ with
  | nil =>
    simp only [List.nil_append, checkPortfolioEntries]
    rw [if_pos hbad]
  | cons p rest ih =>
    obtain ⟨b, q⟩ := p
    have hq := hval (b, q) (List.mem_cons_self _ _)
    simp only [List.cons_append, checkPortfolioEntries]
    rw [if_neg (not_not.mpr hq.1), if_neg hq.2.1,
      if_neg (by push_neg; exact ⟨le_of_lt hq.2.2, ne_of_gt hq.2.2⟩)]
    exact ih (fun p hp => hval p (List.mem_cons_of_mem _ hp))

theorem checkIndexEntries_append_bad (g l₂ : AssetMap) (a : String) (x : ℚ)
    (hbad : toUpperStr a ≠ a) :
    ∀ (l₁ : AssetMap), entriesValid g l₁ →
      ∀ t, checkIndexEntries g (l₁ ++ (a, x) :: l₂) t = Except.error Err.invalidAsset
  | [], _, t => by
    simp only [List.nil_append, checkIndexEntries]
    rw [if_pos hbad]
  | (b, q) :: rest, hval, t => by
    have hq := hval (b, q) (List.mem_cons_self _ _)
    simp only [List.cons_append, checkIndexEntries]
    rw [if_neg (not_not.mpr hq.1), if_neg hq.2.1,
      if_neg (by push_neg; exact ⟨le_of_lt hq.2.2, ne_of_gt hq.2.2⟩)]
    exact checkIndexEntries_append_bad g l₂ a x hbad rest
      (fun p hp => hval p (List.mem_cons_of_mem _ hp)) (t + q)

/-- C8: a mapping whose only violation is one non-uppercase key (its value
positive, every other entry fully valid) is rejected with the
invalid-asset-identifier error by all three validators — pricelist,
portfolio and target weighting; the key is rejected, never normalized. -/
theorem C8_case_sensitivity (g l₁ l₂ : AssetMap) (a : String) (x : ℚ)
    (hbad : toUpperStr a ≠ a) (hpos : 0 < x)
    (hval : entriesValid g (l₁ ++ l₂)) :
    (SetPricelist g (l₁ ++ (a, x) :: l₂)).1 = Except.error Err.invalidAsset ∧
    NewPortfolio g (l₁ ++ (a, x) :: l₂) = Except.error Err.invalidAsset ∧
    NewIndex g (l₁ ++ (a, x) :: l₂) = Except.error Err.invalidAsset := by
  have hv1 : entriesValid g l₁ := fun p hp => hval p (List.mem_append_left _ hp)
  have hne : l₁ ++ (a, x) :: l₂ ≠ [] := by simp
  refine ⟨?_, ?_, ?_⟩
  · rw [SetPricelist, if_neg hne,
      checkPricelistEntries_append_bad l₁ l₂ a x hbad hpos
        (fun p hp => ⟨(hv1 p hp).2.2, (hv1 p hp).1⟩)]
  · rw [NewPortfolio, if_neg hne,
      checkPortfolioEntries_append_bad g l₁ l₂ a x hbad hv1]
  · rw [NewIndex, if_neg hne,
      checkIndexEntries_append_bad g l₂ a x hbad l₁ hv1 0]

/-- C8 witness: the lowercase identifier `eth` with positive value, next to
a fully valid entry, is rejected by all three validators. -/
theorem C8_witness :
    (SetPricelist [("ETH", 5)] [("eth", 1), ("ETH", 1)]).1
      = Except.error Err.invalidAsset ∧
    NewPortfolio [("ETH", 5)] [("eth", 1), ("ETH", 1)]
      = Except.error Err.invalidAsset ∧
    NewIndex [("ETH", 5)] [("eth", 1), ("ETH", 1)]
      = Except.error Err.invalidAsset :=
  C8_case_sensitivity [("ETH", 5)] [] [("ETH", 1)] "eth" 1 (by decide)
    (by norm_num) (by norm_num +decide [entriesValid, lookupKV])

/-- C6 counterexample: the weighting `[("AAA", -1)]` has an uppercase key
absent from the price source and a non-positive value; the code returns the
asset-missing error, not the invalid-amount error the claim requires,
because `NewIndex` checks pricelist membership before value positivity. -/
theorem C6_counterexample :
    NewIndex [("BTC", 1)] [("AAA", -1)] = Except.error Err.assetMissingFromPricelist ∧
    Err.assetMissingFromPricelist ≠ Err.invalidAssetAmount "AAA" (-1) := by
  constructor
  · norm_num +decide [NewIndex, checkIndexEntries, lookupKV]
  · intro h; cases h

/-- C6 (amended): weighting validation checks emptiness first; then, per
entry, the identifier's case, then price-source membership, then the
value's positivity — so a single-entry weighting with an uppercase key
absent from the price source and a value `≤ 0` is rejected with the
asset-missing condition, not the invalid-amount condition; the
sum-equals-1 check comes last. -/
theorem C6_validation_order_amended (g : AssetMap) (a : String) (x : ℚ) (l : AssetMap) :
    (NewIndex g [] = Except.error Err.emptyIndex) ∧
    (toUpperStr a ≠ a → NewIndex g ((a, x) :: l) = Except.error Err.invalidAsset) ∧
    (toUpperStr a = a → lookupKV a g = none →
      NewIndex g ((a, x) :: l) = Except.error Err.assetMissingFromPricelist) ∧
    (toUpperStr a = a → lookupKV a g ≠ none → x ≤ 0 →
      NewIndex g ((a, x) :: l) = Except.error (Err.invalidAssetAmount a x)) := by
  refine ⟨by rw [NewIndex, if_pos rfl], ?_, ?_, ?_⟩
  · intro h1
    have hc : checkIndexEntries g ((a, x) :: l) 0 = Except.error Err.invalidAsset := by
      simp only [checkIndexEntries]
      rw [if_pos h1]
    rw [NewIndex, if_neg (by simp), hc]
  · intro h1 h2
    have hc : checkIndexEntries g ((a, x) :: l) 0
        = Except.error Err.assetMissingFromPricelist := by
      simp only [checkIndexEntries]
      rw [if_neg (not_not.mpr h1), if_pos h2]
    rw [NewIndex, if_neg (by simp), hc]
  · intro h1 h2 h3
    have hor : x < 0 ∨ x = 0 := by
      rcases lt_or_eq_of_le h3 with h | h
      · exact Or.inl h
      · exact Or.inr h
    have hc : checkIndexEntries g ((a, x) :: l) 0
        = Except.error (Err.invalidAssetAmount a x) := by
      simp only [checkIndexEntries]
      rw [if_neg (not_not.mpr h1), if_neg h2, if_pos hor]
    rw [NewIndex, if_neg (by simp), hc]

/-- C6 witness: the three per-entry rejections of `NewIndex` in their
actual order, on concrete single-entry weightings. -/
theorem C6_witness :
    NewIndex [("BTC", 1)] [("eth", 1)] = Except.error Err.invalidAsset ∧
    NewIndex [("BTC", 1)] [("XRP", -1)] = Except.error Err.assetMissingFromPricelist ∧
    NewIndex [("BTC", 1)] [("BTC", 0)] = Except.error (Err.invalidAssetAmount "BTC" 0) :=
  ⟨(C6_validation_order_amended [("BTC", 1)] "eth" 1 []).2.1 (by decide),
   (C6_validation_order_amended [("BTC", 1)] "XRP" (-1) []).2.2.1 (by decide)
     (by norm_num +decide [lookupKV]),
   (C6_validation_order_amended [("BTC", 1)] "BTC" 0 []).2.2.2 (by decide)
     (by norm_num +decide [lookupKV]) (by norm_num)⟩

theorem lookupKV_perm {β : Type} {s : String} :
    ∀ {l₁ l₂ : List (String × β)}, l₁.Perm l₂ → (keysOf l₁).Nodup →
      lookupKV s l₁ = lookupKV s l₂ := by
  intro l₁ l₂ h
  induction h with
  | nil => intro _; rfl
  | cons p h ih =>
    intro hnd
    obtain ⟨b, w⟩ := p
    simp only [keysOf, List.map_cons, List.nodup_cons] at hnd
    simp only [lookupKV]
    by_cases hb : b = s
    · rw [if_pos hb, if_pos hb]
    · rw [if_neg hb, if_neg hb]
      exact ih hnd.2
  | swap p q l =>
    intro hnd
    obtain ⟨b, w⟩ := p
    obtain ⟨c, v⟩ := q
    simp only [keysOf, List.map_cons, List.nodup_cons, List.mem_cons] at hnd
    simp only [lookupKV]
    by_cases hc : c = s
    · have hb : ¬b = s := by
        intro hb
        exact hnd.1 (Or.inl (hc.trans hb.symm))
      rw [if_pos hc, if_neg hb, if_pos hc]
    · rw [if_neg hc]
      by_cases hb : b = s
      · rw [if_pos hb, if_pos hb]
      · rw [if_neg hb, if_neg hb, if_neg hc]
  | trans h₁ h₂ ih₁ ih₂ =>
    intro hnd
    have hnd2 := (h₁.map Prod.fst).nodup_iff.mp hnd
    exact (ih₁ hnd).trans (ih₂ hnd2)

/-- C10: `Rebalance` is deterministic as a map: with the same account and
pricelist, a reordering of the target weighting's entries (Go map iteration
order) yields a successful result with identical per-asset lookups. -/
theorem C10_rebalance_deterministic (g : AssetMap) (a : Account)
    (idx₁ idx₂ : AssetMap) (t₁ : List (String × Trade))
    (hperm : idx₁.Perm idx₂) (hnd : (keysOf idx₁).Nodup)
    (h₁ : Rebalance g a idx₁ = Except.ok t₁) :
    ∃ t₂, Rebalance g a idx₂ = Except.ok t₂ ∧
      ∀ s, lookupKV s t₂ = lookupKV s t₁ := by
  obtain ⟨hidx, hout⟩ := rebalance_ok_iff.mp h₁
  obtain ⟨hne, hval, hsum, -⟩ := newIndex_ok_iff.mp hidx
  have hidx₂ : NewIndex g idx₂ = Except.ok idx₂ := by
    refine newIndex_ok_iff.mpr ⟨?_, ?_, ?_, rfl⟩
    · intro h
      subst h
      exact hne hperm.eq_nil
    · intro p hp
      exact hval p (hperm.mem_iff.mpr hp)
    · rw [← (hperm.map Prod.snd).sum_eq]
      exact hsum
  refine ⟨rebalanceLoop g a.portfolio a.value idx₂,
    rebalance_ok_iff.mpr ⟨hidx₂, rfl⟩, ?_⟩
  intro s
  rw [hout, rebalanceLoop_lookup, rebalanceLoop_lookup,
    lookupKV_perm hperm hnd]

/-- C10 witness: the two orderings of a two-asset weighting produce
lookup-identical trade maps. -/
theorem C10_witness :
    ∃ t₂, Rebalance [("A", 1), ("B", 1)] ⟨[("A", 2)], 2⟩ [("B", 1 / 2), ("A", 1 / 2)]
        = Except.ok t₂ ∧
      ∀ s, lookupKV s t₂
        = lookupKV s [("A", (⟨"sell", 1⟩ : Trade)), ("B", ⟨"buy", 1⟩)] :=
  C10_rebalance_deterministic [("A", 1), ("B", 1)] ⟨[("A", 2)], 2⟩
    [("A", 1 / 2), ("B", 1 / 2)] [("B", 1 / 2), ("A", 1 / 2)]
    [("A", ⟨"sell", 1⟩), ("B", ⟨"buy", 1⟩)]
    (List.Perm.swap ("B", 1 / 2) ("A", 1 / 2) [])
    (by decide)
    (by norm_num +decide [Rebalance, NewIndex, checkIndexEntries, rebalanceLoop, tradeFor,
      decDiv, divisionPrecision, priceOf, lookupKV])

theorem portfolioValue_eq_claim (g : AssetMap) :
    ∀ pf : AssetMap, portfolioValue g pf = (pf.map (fun e => e.2 * priceOf g e.1)).sum
  | [] => rfl
  | e :: rest => by
    have ih := portfolioValue_eq_claim g rest
    simp only [portfolioValue, List.map_cons, List.sum_cons] at ih ⊢
    rw [ih]
    ring

theorem portfolioValue_nonneg (g : AssetMap) (hg : ∀ p ∈ g, 0 < p.2)
    {pf : AssetMap} (hv : entriesValid g pf) : 0 ≤ portfolioValue g pf := by
  apply List.sum_nonneg
  intro x hx
  obtain ⟨e, he, rfl⟩ := List.mem_map.mp hx
  cases hp : lookupKV e.1 g with
  | none => exact absurd hp (hv e he).2.1
  | some p =>
    have hppos := hg (e.1, p) (lookupKV_mem hp)
    simp only [priceOf, hp, Option.getD_some]
    exact le_of_lt (mul_pos hppos (hv e he).2.2)

theorem portfolioValue_pos (g : AssetMap) (hg : ∀ p ∈ g, 0 < p.2)
    {pf : AssetMap} (hv : entriesValid g pf) (hne : pf ≠ []) :
    0 < portfolioValue g pf := by
  apply List.sum_pos
  · intro x hx
    obtain ⟨e, he, rfl⟩ := List.mem_map.mp hx
    cases hp : lookupKV e.1 g with
    | none => exact absurd hp (hv e he).2.1
    | some p =>
      have hppos := hg (e.1, p) (lookupKV_mem hp)
      simp only [priceOf, hp, Option.getD_some]
      exact mul_pos hppos (hv e he).2.2
  · simpa using hne

/-- C5: for every validated portfolio and validated non-empty pricelist, the
account handed back by `NewAccount` carries as its value the sum over the
portfolio's entries of quantity times price, a non-negative number; and
`Rebalance` computes every trade from the value stored in the account (for
any stored value, even one that disagrees with the portfolio), so the
construction-time value is used as-is, never recomputed. -/
theorem C5_account_value (g pf : AssetMap) (acc : Account)
    (hg : ∀ p ∈ g, 0 < p.2)
    (h : NewAccount g pf = Except.ok acc) :
    acc.value = (pf.map (fun e => e.2 * priceOf g e.1)).sum ∧
    0 ≤ acc.value ∧
    (∀ (v : ℚ) (idx : AssetMap) (out : List (String × Trade)),
      Rebalance g ⟨pf, v⟩ idx = Except.ok out →
        ∀ s w, lookupKV s idx = some w →
          lookupKV s out = some (tradeSpec g pf v s w)) := by
  obtain ⟨-, -, hval, hacc⟩ := newAccount_ok_iff.mp h
  subst hacc
  refine ⟨portfolioValue_eq_claim g pf, portfolioValue_nonneg g hg hval, ?_⟩
  intro v idx out hout s w hw
  obtain ⟨-, hout2⟩ := rebalance_ok_iff.mp hout
  subst hout2
  rw [rebalanceLoop_lookup, hw]
  rfl

/-- C5 witness: the single-asset README account: value 42 times 200, and a
rebalance against a stored value uses that stored value. -/
theorem C5_witness :
    (⟨[("ETH", 42)], 8400⟩ : Account).value
        = ([("ETH", (42 : ℚ))].map
            (fun e => e.2 * priceOf [("ETH", 200)] e.1)).sum ∧
    (0 : ℚ) ≤ (⟨[("ETH", 42)], 8400⟩ : Account).value ∧
    (∀ (v : ℚ) (idx : AssetMap) (out : List (String × Trade)),
      Rebalance [("ETH", 200)] ⟨[("ETH", 42)], v⟩ idx = Except.ok out →
        ∀ s w, lookupKV s idx = some w →
          lookupKV s out = some (tradeSpec [("ETH", 200)] [("ETH", 42)] v s w)) :=
  C5_account_value [("ETH", 200)] [("ETH", 42)] ⟨[("ETH", 42)], 8400⟩
    (by norm_num)
    (by norm_num +decide [NewAccount, NewPortfolio, checkPortfolioEntries,
      portfolioValue, priceOf, lookupKV])

theorem floor_add_half (n : ℤ) : ⌊(n : ℚ) + 1 / 2⌋ = n := by
  rw [Int.floor_int_add]
  norm_num

theorem decDiv_exact (a b : ℚ) (n : ℤ) (h : a / b * 10 ^ divisionPrecision = n) :
    decDiv a b = a / b := by
  have h10 : (0 : ℚ) < 10 ^ divisionPrecision := by positivity
  rw [decDiv]
  by_cases hq : a / b < 0
  · rw [if_pos hq]
    have hn : -(a / b) * 10 ^ divisionPrecision = ((-n : ℤ) : ℚ) := by
      push_cast
      linarith
    rw [hn, floor_add_half]
    push_cast
    rw [neg_div, neg_neg, div_eq_iff (ne_of_gt h10)]
    linarith
  · rw [if_neg hq]
    have hn : a / b * 10 ^ divisionPrecision = ((n : ℤ) : ℚ) := h
    rw [hn, floor_add_half]
    rw [div_eq_iff (ne_of_gt h10)]
    linarith

/-- C4 counterexample: the validated account holding `1e-17 AAA` at price 1
has exactly the weighting `{AAA: 1}` (its value weighting equals the target
weighting), yet `Rebalance` returns a sell of `1e-17`, not an amount-zero
trade: the 16-digit division precision rounds the target quantity to 0. -/
theorem C4_counterexample :
    NewAccount [("AAA", 1)] [("AAA", 1 / 10 ^ 17)]
      = Except.ok ⟨[("AAA", 1 / 10 ^ 17)], 1 / 10 ^ 17⟩ ∧
    (1 / 10 ^ 17 : ℚ) * priceOf [("AAA", 1)] "AAA" / (1 / 10 ^ 17 : ℚ) = 1 ∧
    Rebalance [("AAA", 1)] ⟨[("AAA", 1 / 10 ^ 17)], 1 / 10 ^ 17⟩ [("AAA", 1)]
      = Except.ok [("AAA", ⟨"sell", 1 / 10 ^ 17⟩)] ∧
    (1 / 10 ^ 17 : ℚ) ≠ 0 := by
  refine ⟨?_, ?_, ?_, by norm_num⟩
  · norm_num +decide [NewAccount, NewPortfolio, checkPortfolioEntries,
      portfolioValue, priceOf, lookupKV]
  · norm_num +decide [priceOf, lookupKV]
  · norm_num +decide [Rebalance, NewIndex, checkIndexEntries, rebalanceLoop, tradeFor,
      decDiv, divisionPrecision, priceOf, lookupKV]

/-- C4 (amended): rebalancing a validated already-on-target portfolio
against its own weighting yields trades all of amount exactly 0, provided
every held quantity has at most 16 decimal places (so each division
`total_value * w / price` reproduces the held quantity exactly at the
decimal type's 16-digit division precision). -/
theorem C4_idempotence_amended (g pf : AssetMap) (acc : Account) (W : AssetMap)
    (hg : ∀ p ∈ g, 0 < p.2)
    (hacc : NewAccount g pf = Except.ok acc)
    (hW : NewIndex g W = Except.ok W)
    (hcover : ∀ p ∈ pf, lookupKV p.1 W ≠ none)
    (hmatch : ∀ p ∈ W, ∃ q, lookupKV p.1 pf = some q ∧
      q * priceOf g p.1 / acc.value = p.2)
    (hprec : ∀ p ∈ pf, ∃ n : ℤ, p.2 * 10 ^ divisionPrecision = n) :
    ∃ out, Rebalance g acc W = Except.ok out ∧
      ∀ s t, lookupKV s out = some t → t.amount = 0 := by
  obtain ⟨hgne, hpfne, hval, hacc2⟩ := newAccount_ok_iff.mp hacc
  subst hacc2
  dsimp only at hmatch ⊢
  have hvpos : 0 < portfolioValue g pf := portfolioValue_pos g hg hval hpfne
  refine ⟨rebalanceLoop g pf (portfolioValue g pf) W,
    rebalance_ok_iff.mpr ⟨hW, rfl⟩, ?_⟩
  intro s t ht
  rw [rebalanceLoop_lookup] at ht
  cases hw : lookupKV s W with
  | none => rw [hw] at ht; cases ht
  | some w =>
    rw [hw] at ht
    simp only [Option.map_some'] at ht
    injection ht with ht
    have hmem := lookupKV_mem hw
    obtain ⟨q, hq, hqw⟩ := hmatch (s, w) hmem
    dsimp only at hq hqw
    cases hp : lookupKV s g with
    | none => exact absurd hp ((newIndex_ok_iff.mp hW).2.1 (s, w) hmem).2.1
    | some p =>
      have hppos : 0 < p := hg (s, p) (lookupKV_mem hp)
      have hp0 : p ≠ 0 := ne_of_gt hppos
      have hv0 : portfolioValue g pf ≠ 0 := ne_of_gt hvpos
      have hpq : priceOf g s = p := by rw [priceOf, hp]; rfl
      have hvw : portfolioValue g pf * w = q * p := by
        rw [← hqw, hpq]
        field_simp
      obtain ⟨n, hn⟩ := hprec (s, q) (lookupKV_mem hq)
      have hdivq : portfolioValue g pf * w / priceOf g s = q := by
        rw [hvw, hpq, mul_div_assoc, div_self hp0, mul_one]
      have hdiv : decDiv (portfolioValue g pf * w) (priceOf g s) = q := by
        rw [decDiv_exact _ _ n (by rw [hdivq]; exact hn), hdivq]
      subst ht
      simp only [tradeSpec, hq, Option.getD_some, hdiv, sub_self]
      rw [if_neg (lt_irrefl 0)]

/-- C4 witness: a one-asset account exactly on target with a 0-decimal-place
holding; the amended idempotence theorem applies and yields an amount-0
trade map. -/
theorem C4_witness :
    ∃ out, Rebalance [("AAA", 2)] ⟨[("AAA", 3)], 6⟩ [("AAA", 1)] = Except.ok out ∧
      ∀ s t, lookupKV s out = some t → t.amount = 0 :=
  C4_idempotence_amended [("AAA", 2)] [("AAA", 3)] ⟨[("AAA", 3)], 6⟩ [("AAA", 1)]
    (by norm_num)
    (by norm_num +decide [NewAccount, NewPortfolio, checkPortfolioEntries,
      portfolioValue, priceOf, lookupKV])
    (by norm_num +decide [NewIndex, checkIndexEntries, lookupKV])
    (by norm_num +decide [lookupKV])
    (by
      intro p hp
      simp only [List.mem_singleton] at hp
      subst hp
      exact ⟨3, by norm_num +decide [lookupKV], by norm_num +decide [priceOf, lookupKV]⟩)
    (by
      intro p hp
      simp only [List.mem_singleton] at hp
      subst hp
      exact ⟨3 * 10 ^ 16, by norm_num [divisionPrecision]⟩)

theorem sum_map_congr {α : Type} (f f2 : α → ℚ) :
    ∀ l : List α, (∀ p ∈ l, f p = f2 p) → (l.map f).sum = (l.map f2).sum
  | [], _ => rfl
  | x :: xs, h => by
    simp only [List.map_cons, List.sum_cons]
    rw [h x (List.mem_cons_self _ _),
      sum_map_congr f f2 xs (fun p hp => h p (List.mem_cons_of_mem _ hp))]

theorem sum_map_sub {α : Type} (f h : α → ℚ) :
    ∀ l : List α, (l.map (fun x => f x - h x)).sum = (l.map f).sum - (l.map h).sum
  | [] => by simp
  | x :: xs => by
    simp only [List.map_cons, List.sum_cons, sum_map_sub f h xs]
    ring

theorem sum_map_mul_const (c : ℚ) :
    ∀ l : AssetMap, (l.map (fun e => c * e.2)).sum = c * (l.map Prod.snd).sum
  | [] => by simp
  | x :: xs => by
    simp only [List.map_cons, List.sum_cons, sum_map_mul_const c xs]
    ring

theorem rebalanceLoop_eq_map (g pf : AssetMap) (v : ℚ) :
    ∀ l : AssetMap,
      rebalanceLoop g pf v l = l.map (fun e => (e.1, tradeSpec g pf v e.1 e.2))
  | [] => rfl
  | (b, w) :: rest => by
    simp only [rebalanceLoop, List.map_cons]
    rw [tradeFor_eq_tradeSpec, rebalanceLoop_eq_map]

theorem portfolioValue_updateAdd (g : AssetMap) (a : String) (d : ℚ) :
    ∀ pf : AssetMap,
      portfolioValue g (updateAdd pf a d) = portfolioValue g pf + priceOf g a * d
  | [] => by simp [updateAdd, portfolioValue]
  | (b, q) :: rest => by
    by_cases hb : b = a
    · subst hb
      simp only [updateAdd]
      rw [if_true]
      simp only [portfolioValue, List.map_cons, List.sum_cons]
      ring
    · simp only [updateAdd, if_neg hb, portfolioValue, List.map_cons, List.sum_cons]
      have ih := portfolioValue_updateAdd g a d rest
      simp only [portfolioValue] at ih
      rw [ih]
      ring

theorem portfolioValue_applyTrades (g : AssetMap) :
    ∀ (ts : List (String × Trade)) (pf : AssetMap),
      portfolioValue g (applyTrades pf ts)
        = portfolioValue g pf + (ts.map (fun e => priceOf g e.1 * tradeDelta e.2)).sum
  | [], pf => by simp [applyTrades]
  | (a, t) :: rest, pf => by
    simp only [applyTrades, List.map_cons, List.sum_cons]
    rw [portfolioValue_applyTrades g rest _, portfolioValue_updateAdd]
    ring

theorem tradeDelta_tradeSpec (g pf : AssetMap) (v : ℚ) (a : String) (w : ℚ) :
    tradeDelta (tradeSpec g pf v a w)
      = decDiv (v * w) (priceOf g a) - (lookupKV a pf).getD 0 := by
  rw [tradeSpec]
  split_ifs with h
  · simp only [tradeDelta]
    rw [if_true, abs_of_neg h, neg_neg]
  · simp only [tradeDelta]
    rw [if_neg (by decide : ¬("buy" : String) = "sell")]

theorem eraseKey_sublist (a : String) : ∀ pf : AssetMap, (eraseKey a pf).Sublist pf
  | [] => List.Sublist.refl _
  | (b, q) :: rest => by
    by_cases hb : b = a
    · subst hb
      simp only [eraseKey, if_pos rfl]
      exact (eraseKey_sublist b rest).cons _
    · simp only [eraseKey, if_neg hb]
      exact (eraseKey_sublist a rest).cons₂ _

theorem mem_eraseKey_key_ne (a : String) :
    ∀ {pf : AssetMap} {p : String × ℚ}, p ∈ eraseKey a pf → p.1 ≠ a
  | [], p, h => by simp [eraseKey] at h
  | (b, q) :: rest, p, h => by
    by_cases hb : b = a
    · subst hb
      simp only [eraseKey, if_pos rfl] at h
      exact mem_eraseKey_key_ne b h
    · simp only [eraseKey, if_neg hb] at h
      rcases List.mem_cons.mp h with h | h
      · rw [h]; exact hb
      · exact mem_eraseKey_key_ne a h

theorem lookupKV_eraseKey_ne (a s : String) (h : s ≠ a) :
    ∀ pf : AssetMap, lookupKV s (eraseKey a pf) = lookupKV s pf
  | [] => rfl
  | (b, q) :: rest => by
    by_cases hb : b = a
    · subst hb
      simp only [eraseKey, if_pos rfl, lookupKV]
      rw [if_neg (fun hbs : b = s => h (hbs.symm))]
      exact lookupKV_eraseKey_ne b s h rest
    · simp only [eraseKey, if_neg hb, lookupKV]
      by_cases hbs : b = s
      · rw [if_pos hbs, if_pos hbs]
      · rw [if_neg hbs, if_neg hbs]
        exact lookupKV_eraseKey_ne a s h rest

theorem eraseKey_not_mem (a : String) :
    ∀ {pf : AssetMap}, a ∉ keysOf pf → eraseKey a pf = pf
  | [], _ => rfl
  | (b, q) :: rest, h => by
    simp only [keysOf, List.map_cons, List.mem_cons] at h
    push_neg at h
    simp only [eraseKey, if_neg (fun hb : b = a => h.1 hb.symm)]
    rw [eraseKey_not_mem a (by simpa [keysOf] using h.2)]

theorem portfolioValue_eraseKey (g : AssetMap) (a : String) :
    ∀ {pf : AssetMap}, (keysOf pf).Nodup →
      portfolioValue g pf
        = priceOf g a * (lookupKV a pf).getD 0 + portfolioValue g (eraseKey a pf)
  | [], _ => by simp [portfolioValue, lookupKV, eraseKey]
  | (b, q) :: rest, hnd => by
    simp only [keysOf, List.map_cons, List.nodup_cons] at hnd
    by_cases hb : b = a
    · subst hb
      have h1 : eraseKey b ((b, q) :: rest) = eraseKey b rest := by
        simp [eraseKey]
      rw [h1, eraseKey_not_mem b (by simpa [keysOf] using hnd.1)]
      simp only [portfolioValue, List.map_cons, List.sum_cons, lookupKV]
      rw [if_true]
      rfl
    · have ih := portfolioValue_eraseKey g a (hnd.2)
      simp only [eraseKey, if_neg hb, portfolioValue, List.map_cons, List.sum_cons,
        lookupKV, if_neg hb]
      simp only [portfolioValue] at ih
      rw [ih]
      ring

theorem sum_price_lookup_eq_value (g : AssetMap) :
    ∀ (idx pf : AssetMap), (keysOf idx).Nodup → (keysOf pf).Nodup →
      (∀ p ∈ pf, lookupKV p.1 idx ≠ none) →
      (idx.map (fun e => priceOf g e.1 * (lookupKV e.1 pf).getD 0)).sum
        = portfolioValue g pf
  | [], pf, _, _, hcov => by
    cases pf with
    | nil => simp [portfolioValue]
    | cons p rest => exact absurd rfl (hcov p (List.mem_cons_self _ _))
  | (a, w) :: rest, pf, hndidx, hndpf, hcov => by
    simp only [keysOf, List.map_cons, List.nodup_cons] at hndidx
    simp only [List.map_cons, List.sum_cons]
    have htail : (rest.map (fun e => priceOf g e.1 * (lookupKV e.1 pf).getD 0)).sum
        = (rest.map (fun e => priceOf g e.1 * (lookupKV e.1 (eraseKey a pf)).getD 0)).sum := by
      apply sum_map_congr
      intro p hp
      rw [lookupKV_eraseKey_ne a p.1
        (fun h => hndidx.1 (h ▸ List.mem_map_of_mem Prod.fst hp))]
    have hnderase : (keysOf (eraseKey a pf)).Nodup :=
      List.Nodup.sublist ((eraseKey_sublist a pf).map Prod.fst) hndpf
    have hcov2 : ∀ p ∈ eraseKey a pf, lookupKV p.1 rest ≠ none := by
      intro p hp
      have hmem : p ∈ pf := (eraseKey_sublist a pf).subset hp
      have hne : p.1 ≠ a := mem_eraseKey_key_ne a hp
      have := hcov p hmem
      simp only [lookupKV, if_neg (fun h : a = p.1 => hne h.symm)] at this
      exact this
    rw [htail, sum_price_lookup_eq_value g rest (eraseKey a pf) hndidx.2 hnderase hcov2,
      ← portfolioValue_eraseKey g a hndpf]

/-- C1 counterexample: pricelist `{AAA:1, BBB:1}`, portfolio
`{AAA:1, BBB:1}` (total value 2) and the validated weighting `{AAA:1}`:
the emitted trade is buy 1 AAA, and executing it yields a portfolio worth
3 ≠ 2 — value is not conserved, because the weighting allocates the full
total value while the unmentioned holding BBB is left in place. -/
theorem C1_counterexample :
    (SetPricelist [] [("AAA", 1), ("BBB", 1)]).1 = Except.ok () ∧
    NewAccount [("AAA", 1), ("BBB", 1)] [("AAA", 1), ("BBB", 1)]
      = Except.ok ⟨[("AAA", 1), ("BBB", 1)], 2⟩ ∧
    Rebalance [("AAA", 1), ("BBB", 1)] ⟨[("AAA", 1), ("BBB", 1)], 2⟩ [("AAA", 1)]
      = Except.ok [("AAA", ⟨"buy", 1⟩)] ∧
    portfolioValue [("AAA", 1), ("BBB", 1)]
        (applyTrades [("AAA", 1), ("BBB", 1)] [("AAA", ⟨"buy", 1⟩)]) = 3 ∧
    portfolioValue [("AAA", 1), ("BBB", 1)] [("AAA", 1), ("BBB", 1)] = 2 ∧
    (3 : ℚ) ≠ 2 := by
  refine ⟨?_, ?_, ?_, ?_, ?_, by norm_num⟩
  · norm_num +decide [SetPricelist, checkPricelistEntries]
  · norm_num +decide [NewAccount, NewPortfolio, checkPortfolioEntries,
      portfolioValue, priceOf, lookupKV]
  · norm_num +decide [Rebalance, NewIndex, checkIndexEntries, rebalanceLoop, tradeFor,
      decDiv, divisionPrecision, priceOf, lookupKV]
  · norm_num +decide [applyTrades, updateAdd, tradeDelta, portfolioValue, priceOf, lookupKV]
  · norm_num +decide [portfolioValue, priceOf, lookupKV]

/-- C1 (amended): executing every emitted trade conserves the total market
value exactly, provided additionally that every held asset appears in the
target weighting and that each division `total_value * w / price[asset]` is
exact at the decimal type's 16-digit division precision (its rounded
quotient times the price reproduces `total_value * w`). -/
theorem C1_value_conservation_amended (g pf : AssetMap) (acc : Account)
    (W : AssetMap) (out : List (String × Trade))
    (hg : ∀ p ∈ g, 0 < p.2)
    (hacc : NewAccount g pf = Except.ok acc)
    (hreb : Rebalance g acc W = Except.ok out)
    (hndpf : (keysOf pf).Nodup) (hndW : (keysOf W).Nodup)
    (hcover : ∀ p ∈ pf, lookupKV p.1 W ≠ none)
    (hexact : ∀ p ∈ W,
      decDiv (acc.value * p.2) (priceOf g p.1) * priceOf g p.1 = acc.value * p.2) :
    portfolioValue g (applyTrades pf out) = portfolioValue g pf := by
  obtain ⟨hgne, hpfne, hval, hacc2⟩ := newAccount_ok_iff.mp hacc
  subst hacc2
  dsimp only at hreb hexact
  obtain ⟨hW, hout⟩ := rebalance_ok_iff.mp hreb
  dsimp only at hout
  subst hout
  obtain ⟨-, hWval, hWsum, -⟩ := newIndex_ok_iff.mp hW
  rw [portfolioValue_applyTrades, rebalanceLoop_eq_map, List.map_map]
  have hsum2 : (W.map ((fun e => priceOf g e.1 * tradeDelta e.2)
        ∘ (fun e => (e.1, tradeSpec g pf (portfolioValue g pf) e.1 e.2)))).sum
      = (W.map (fun e => (fun p => portfolioValue g pf * p.2) e
          - (fun p => priceOf g p.1 * (lookupKV p.1 pf).getD 0) e)).sum := by
    apply sum_map_congr
    intro p hp
    simp only [Function.comp]
    rw [tradeDelta_tradeSpec, mul_sub,
      show priceOf g p.1 * decDiv (portfolioValue g pf * p.2) (priceOf g p.1)
          = portfolioValue g pf * p.2 from by rw [mul_comm]; exact hexact p hp]
  rw [hsum2, sum_map_sub, sum_map_mul_const, hWsum, mul_one,
    sum_price_lookup_eq_value g W pf hndW hndpf hcover]
  ring

/-- C1 witness: the README example satisfies the amended hypotheses (the
weighting covers the single held asset ETH, and all five divisions are
exact), so executing its five trades leaves the total value at 8400. -/
theorem C1_witness :
    portfolioValue
        [("ETH", 200), ("BTC", 2000), ("IOTA", 3 / 10), ("BAT", 12 / 100), ("XLM", 2 / 10)]
        (applyTrades [("ETH", 42)]
          [("ETH", ⟨"sell", 336 / 10⟩), ("BTC", ⟨"buy", 84 / 100⟩),
           ("IOTA", ⟨"buy", 5600⟩), ("BAT", ⟨"buy", 14000⟩), ("XLM", ⟨"buy", 8400⟩)])
      = portfolioValue
          [("ETH", 200), ("BTC", 2000), ("IOTA", 3 / 10), ("BAT", 12 / 100), ("XLM", 2 / 10)]
          [("ETH", 42)] :=
  C1_value_conservation_amended
    [("ETH", 200), ("BTC", 2000), ("IOTA", 3 / 10), ("BAT", 12 / 100), ("XLM", 2 / 10)]
    [("ETH", 42)] ⟨[("ETH", 42)], 8400⟩
    [("ETH", 1 / 5), ("BTC", 1 / 5), ("IOTA", 1 / 5), ("BAT", 1 / 5), ("XLM", 1 / 5)]
    [("ETH", ⟨"sell", 336 / 10⟩), ("BTC", ⟨"buy", 84 / 100⟩),
     ("IOTA", ⟨"buy", 5600⟩), ("BAT", ⟨"buy", 14000⟩), ("XLM", ⟨"buy", 8400⟩)]
    (by norm_num)
    (by norm_num +decide [NewAccount, NewPortfolio, checkPortfolioEntries,
      portfolioValue, priceOf, lookupKV])
    (by norm_num +decide [Rebalance, NewIndex, checkIndexEntries, rebalanceLoop, tradeFor,
      decDiv, divisionPrecision, priceOf, lookupKV])
    (by decide)
    (by decide)
    (by norm_num +decide [lookupKV])
    (by
      intro p hp
      simp only [List.mem_cons, List.not_mem_nil, or_false] at hp
      rcases hp with rfl | rfl | rfl | rfl | rfl <;>
        norm_num +decide [decDiv, divisionPrecision, priceOf, lookupKV])

end Rebalancer
